import Mathlib

/-!
Verification of the typed-column data model and binary wire-encoding layer
of the clickhouse-cpp client, against its specification.

The repository ships the generic column unit tests (src/ut/Column_ut.cpp);
the column implementations themselves (clickhouse/columns/*.h, the Column
contract, ArrayInput/ArrayOutput) are exercised by those tests but are not
part of the provided sources, so the model below is built from the
specification's description of the Column contract (§3, §4.1-§4.7) and the
wire layouts (§4.2-§4.5).  Errors that the C++ code signals by throwing
(ValidationError/IndexError, TypeMismatch) or by a boolean result (Load)
are modelled with Option: `none` is the failure outcome.
-/

/-- Modelled from the spec: the immutable Type Descriptor of §3 — a semantic
type name plus zero or more numeric parameters (width, precision, scale);
two columns have equal descriptors iff they are interchangeable for
Save/Load. The C++ `Type` class is not among the provided sources. -/
structure TypeDesc where
  name : String
  params : List Nat
deriving DecidableEq, Repr

/-- Modelled from the spec: one concrete column variant's value-level binary
encoding (§4.2-§4.5) — its type descriptor, the set of representable values,
and the per-value encoder/decoder over the byte stream.  A byte is a `Nat`
(meaningful values are `< 256`); `decode` reads one value off the front of
the input and returns the remaining bytes, or `none` when the input is too
short (§4.7: a short read is reported, not thrown). -/
structure Encoding (α : Type) where
  desc : TypeDesc
  valid : α → Bool
  encode : α → List Nat
  decode : List Nat → Option (α × List Nat)

/-- The wire-layout stability contract of §6: for every representable value,
the bytes `encode` produces are exactly what `decode` consumes, leaving any
trailing bytes untouched. -/
def Encoding.RoundTrips {α : Type} (e : Encoding α) : Prop :=
  ∀ (v : α) (rest : List Nat), e.valid v = true →
    e.decode (e.encode v ++ rest) = some (v, rest)

/-- The short-read contract of §4.7/§7: a value cannot be decoded from a
proper leading portion of its own wire bytes — on such truncated input the
decoder reports exhaustion (`none`) instead of producing a value.  Together
with `Encoding.RoundTrips` this pins down when `Load` succeeds and when it
signals the recoverable short-buffer outcome. -/
def Encoding.ShortFails {α : Type} (e : Encoding α) : Prop :=
  ∀ (v : α) (k : Nat), e.valid v = true → k < (e.encode v).length →
    e.decode ((e.encode v).take k) = none

/-- Modelled from the spec: a Column (§3) — a homogeneous, insertion-ordered
sequence of values of one logical type, exclusively owning its storage,
together with its variant's encoding.  The C++ `Column` hierarchy is not
among the provided sources. -/
structure Column (α : Type) where
  enc : Encoding α
  data : List α

/-- A freshly constructed, empty column of the given variant. -/
def mkColumn {α : Type} (e : Encoding α) : Column α := ⟨e, []⟩

namespace Column

variable {α : Type}

/-- `Size()` of §4.1: the count of values; never fails. -/
def Size (c : Column α) : Nat := c.data.length

/-- `GetType()` of §4.1: the type descriptor, stable for the column's lifetime. -/
def GetType (c : Column α) : TypeDesc := c.enc.desc

/-- `Append(value)` of §4.1: grows the column by one value at the end. -/
def Append (c : Column α) (v : α) : Column α := ⟨c.enc, c.data ++ [v]⟩

/-- Appending a whole sequence of values in order, one `Append` per value,
as the test helper `AppendValues` does. -/
def appendAll (c : Column α) (vs : List α) : Column α := vs.foldl Append c

/-- `At(index)` of §4.1: random-access read; `none` models the IndexError
thrown when `index >= Size()`. -/
def At (c : Column α) (i : Nat) : Option α := c.data[i]?

/-- `Slice(offset, length)` of §4.1: requires `offset + length <= Size()`
(otherwise fails); returns a new, independently owned column holding a copy
of the selected range, with the source's type descriptor. -/
def Slice (c : Column α) (off len : Nat) : Option (Column α) :=
  if off + len ≤ c.Size then some ⟨c.enc, (c.data.drop off).take len⟩ else none

/-- `CloneEmpty()` of §4.1: a new, empty column with the identical type
descriptor, regardless of the source's contents. -/
def CloneEmpty (c : Column α) : Column α := ⟨c.enc, []⟩

/-- `Clear()` of §4.1: resets `Size()` to 0, type descriptor unchanged;
never fails (total). -/
def Clear (c : Column α) : Column α := ⟨c.enc, []⟩

/-- `Swap(other)` of §4.1: exchanges backing storage in place; returns the
pair (self after, other after). -/
def Swap (a b : Column α) : Column α × Column α := (⟨a.enc, b.data⟩, ⟨b.enc, a.data⟩)

/-- `AsStrict<ConcreteType>()` of §4.1: checked narrowing — succeeds only if
the runtime type descriptor matches the requested one exactly, otherwise
fails (`none` models the TypeMismatch error). -/
def AsStrict (c : Column α) (d : TypeDesc) : Option (Column α) :=
  if c.GetType = d then some c else none

/-- `Save(output)` of §4.1: the byte sequence produced — every value
currently held, serialized in index order, back to back. -/
def Save (c : Column α) : List Nat := (c.data.map c.enc.encode).flatten

end Column

/-- Reading `n` consecutive values off the front of a byte stream with one
variant's decoder; `none` when the stream is exhausted before `n` values are
fully read. -/
def Encoding.decodeN {α : Type} (e : Encoding α) : Nat → List Nat → Option (List α × List Nat)
  | 0, input => some ([], input)
  | n + 1, input =>
    match e.decode input with
    | none => none
    | some (v, rest) =>
      match e.decodeN n rest with
      | none => none
      | some (vs, rest2) => some (v :: vs, rest2)

namespace Column

variable {α : Type}

/-- `Load(input, rowCount)` of §4.1: appends exactly `rowCount` values read
from the input in the variant's binary layout; the outcome is a result value
(`none` = the recoverable short-buffer failure of §7), never an exception.
On success it also yields the unconsumed remainder of the input. -/
def Load (c : Column α) (input : List Nat) (n : Nat) : Option (Column α × List Nat) :=
  match c.enc.decodeN n input with
  | none => none
  | some (vs, rest) => some (⟨c.enc, c.data ++ vs⟩, rest)

/-- Modelled from the spec: `ArrayOutput` over a bounded buffer (§4.7) —
`Save` writes its bytes at the start of the buffer, fails only on capacity
exhaustion, and leaves the bytes beyond what it wrote unchanged. -/
def SaveTo (c : Column α) (buf : List Nat) : Option (List Nat) :=
  if c.Save.length ≤ buf.length then some (c.Save ++ buf.drop c.Save.length) else none

end Column

/-! ## Concrete variants (wire layouts of §4.2-§4.5) -/

/-- Little-endian fixed-width encoding of a natural number into `w` bytes
(§4.2: native byte width, little-endian, no padding, no framing). -/
def natToBytesLE : Nat → Nat → List Nat
  | 0, _ => []
  | w + 1, v => v % 256 :: natToBytesLE w (v / 256)

/-- Little-endian decoding of a byte list back into a natural number. -/
def bytesToNatLE : List Nat → Nat
  | [] => 0
  | b :: rest => b + 256 * bytesToNatLE rest

/-- Decoding one `w`-byte fixed-width value: fails when fewer than `w` bytes
remain. -/
def fixedDecode (w : Nat) (bs : List Nat) : Option (Nat × List Nat) :=
  if w ≤ bs.length then some (bytesToNatLE (bs.take w), bs.drop w) else none

/-- Modelled from the spec: the encoding shared by all fixed-width numeric
variants (§4.2, §4.4, §4.5) — `w` bytes per value, little-endian,
`Size() * w` bytes total.  The descriptor distinguishes the variants
(UInt8..UInt64, Date, DateTime, DateTime64(p), Decimal(p,s), IPv4, ...). -/
def fixedEncoding (d : TypeDesc) (w : Nat) : Encoding Nat :=
  { desc := d
    valid := fun v => decide (v < 256 ^ w)
    encode := natToBytesLE w
    decode := fixedDecode w }

/-- Modelled from the spec: `FixedString(width)` (§4.3) — every value
occupies exactly `width` raw bytes, serialized with no framing; a stored
value is already in its width-byte (zero-padded) form. -/
def fixedStringEncoding (w : Nat) : Encoding (List Nat) :=
  { desc := ⟨"FixedString", [w]⟩
    valid := fun s => decide (s.length = w)
    encode := fun s => s
    decode := fun bs => if w ≤ bs.length then some (bs.take w, bs.drop w) else none }

/-- Modelled from the spec: variable-length `String` (§4.3) — each value is
length-prefixed (the spec leaves the width of the length field to the
implementer as long as it round-trips; a fixed 8-byte little-endian length
field is used here) followed by the raw bytes. -/
def stringEncoding : Encoding (List Nat) :=
  { desc := ⟨"String", []⟩
    valid := fun s => decide (s.length < 256 ^ 8)
    encode := fun s => natToBytesLE 8 s.length ++ s
    decode := fun bs =>
      match fixedDecode 8 bs with
      | none => none
      | some (len, rest) =>
        if len ≤ rest.length then some (rest.take len, rest.drop len) else none }

/-- The `ColumnUInt32` variant used in the spec's §8 scenario. -/
def uint32Desc : TypeDesc := ⟨"UInt32", []⟩

/-- A fresh `ColumnUInt32`. -/
def mkColumnUInt32 : Column Nat := mkColumn (fixedEncoding uint32Desc 4)

/-- A fresh `ColumnFixedString(w)` (the tests use width 12). -/
def mkColumnFixedString (w : Nat) : Column (List Nat) := mkColumn (fixedStringEncoding w)

/-- A fresh `ColumnDateTime64(p)` (sub-second precision in the descriptor,
8-byte tick count; the tests use precision 3). -/
def mkColumnDateTime64 (p : Nat) : Column Nat := mkColumn (fixedEncoding ⟨"DateTime64", [p]⟩ 8)

/-- A fresh `ColumnDecimal(p, s)` (precision and scale in the descriptor,
16-byte underlying integer; the tests use (10, 5)). -/
def mkColumnDecimal (p s : Nat) : Column Nat := mkColumn (fixedEncoding ⟨"Decimal", [p, s]⟩ 16)

/-- A fresh variable-length `ColumnString`. -/
def mkColumnString : Column (List Nat) := mkColumn stringEncoding

/-! ## Helper lemmas -/

lemma appendAll_enc {α : Type} (c : Column α) (vs : List α) :
    (c.appendAll vs).enc = c.enc := by
  induction vs generalizing c with
  | nil => rfl
  | cons v vs ih => simpa [Column.appendAll, Column.Append] using ih ⟨c.enc, c.data ++ [v]⟩

lemma appendAll_data {α : Type} (c : Column α) (vs : List α) :
    (c.appendAll vs).data = c.data ++ vs := by
  induction vs generalizing c with
  | nil => simp [Column.appendAll]
  | cons v vs ih =>
    simp only [Column.appendAll, List.foldl_cons] at *
    rw [ih]
    simp [Column.Append]

lemma appendAll_mk_data {α : Type} (e : Encoding α) (vs : List α) :
    ((mkColumn e).appendAll vs).data = vs := by
  simpa [mkColumn] using appendAll_data (mkColumn e) vs

lemma natToBytesLE_length (w v : Nat) : (natToBytesLE w v).length = w := by
  induction w generalizing v with
  | zero => rfl
  | succ w ih => simp [natToBytesLE, ih]

lemma bytesToNatLE_natToBytesLE (w v : Nat) :
    bytesToNatLE (natToBytesLE w v) = v % 256 ^ w := by
  induction w generalizing v with
  | zero => simp [natToBytesLE, bytesToNatLE, Nat.mod_one]
  | succ w ih =>
    rw [natToBytesLE, bytesToNatLE, ih, pow_succ, mul_comm (256 ^ w) 256, Nat.mod_mul]

lemma fixedEncoding_roundTrips (d : TypeDesc) (w : Nat) :
    (fixedEncoding d w).RoundTrips := by
  intro v rest hv
  have hvlt : v < 256 ^ w := of_decide_eq_true hv
  simp only [fixedEncoding, fixedDecode]
  rw [if_pos (by simp [natToBytesLE_length]),
      List.take_left' (natToBytesLE_length w v),
      List.drop_left' (natToBytesLE_length w v)]
  simp [bytesToNatLE_natToBytesLE, Nat.mod_eq_of_lt hvlt]

lemma fixedStringEncoding_roundTrips (w : Nat) :
    (fixedStringEncoding w).RoundTrips := by
  intro v rest hv
  have hlen : v.length = w := of_decide_eq_true hv
  simp only [fixedStringEncoding]
  rw [if_pos (by simp [hlen]), List.take_left' hlen, List.drop_left' hlen]

lemma stringEncoding_roundTrips : stringEncoding.RoundTrips := by
  intro v rest hv
  have hvlt : v.length < 256 ^ 8 := of_decide_eq_true hv
  have h8 : (fixedEncoding ⟨"String", []⟩ 8).decode
      (natToBytesLE 8 v.length ++ (v ++ rest)) = some (v.length, v ++ rest) :=
    fixedEncoding_roundTrips ⟨"String", []⟩ 8 v.length (v ++ rest)
      (by simp only [fixedEncoding, decide_eq_true_eq]; exact hvlt)
  simp only [fixedEncoding] at h8
  simp only [stringEncoding, List.append_assoc, h8]
  rw [if_pos (by simp), List.take_left' rfl, List.drop_left' rfl]

lemma decodeN_length {α : Type} (e : Encoding α) :
    ∀ (n : Nat) (input : List Nat) (vs : List α) (rest : List Nat),
      e.decodeN n input = some (vs, rest) → vs.length = n := by
  intro n
  induction n with
  | zero =>
    intro input vs rest h
    simp only [Encoding.decodeN] at h
    cases h
    rfl
  | succ n ih =>
    intro input vs rest h
    cases hd : e.decode input with
    | none => simp [Encoding.decodeN, hd] at h
    | some p =>
      obtain ⟨v1, r1⟩ := p
      cases hn : e.decodeN n r1 with
      | none => simp [Encoding.decodeN, hd, hn] at h
      | some q =>
        obtain ⟨vs1, r2⟩ := q
        simp only [Encoding.decodeN, hd, hn, Option.some.injEq, Prod.mk.injEq] at h
        obtain ⟨h1, h2⟩ := h
        rw [← h1, List.length_cons, ih r1 vs1 r2 hn]

lemma decodeN_encode {α : Type} (e : Encoding α) (h : e.RoundTrips) :
    ∀ (vs : List α) (junk : List Nat), (∀ v ∈ vs, e.valid v = true) →
      e.decodeN vs.length ((vs.map e.encode).flatten ++ junk) = some (vs, junk) := by
  intro vs
  induction vs with
  | nil => intro junk _; simp [Encoding.decodeN]
  | cons v vs ih =>
    intro junk hv
    have hdec : e.decode (e.encode v ++ ((vs.map e.encode).flatten ++ junk))
        = some (v, (vs.map e.encode).flatten ++ junk) :=
      h v _ (hv v (by simp))
    simp only [List.length_cons, Encoding.decodeN, List.map_cons, List.flatten_cons,
      List.append_assoc, hdec]
    rw [ih junk (fun x hx => hv x (by simp [hx]))]

lemma appendAll_mk_save {α : Type} (e : Encoding α) (vs : List α) :
    ((mkColumn e).appendAll vs).Save = (vs.map e.encode).flatten := by
  simp [Column.Save, appendAll_data, appendAll_enc, mkColumn]

lemma fixedEncoding_shortFails (d : TypeDesc) (w : Nat) :
    (fixedEncoding d w).ShortFails := by
  intro v k _ hk
  simp only [fixedEncoding, natToBytesLE_length] at hk ⊢
  simp only [fixedDecode, List.length_take, natToBytesLE_length]
  rw [if_neg (by omega)]

lemma fixedStringEncoding_shortFails (w : Nat) :
    (fixedStringEncoding w).ShortFails := by
  intro v k hval hk
  have hlen : v.length = w := of_decide_eq_true hval
  simp only [fixedStringEncoding] at hk ⊢
  rw [if_neg (by simp only [List.length_take]; omega)]

lemma stringEncoding_shortFails : stringEncoding.ShortFails := by
  intro v k hval hk
  have hvlt : v.length < 256 ^ 8 := of_decide_eq_true hval
  simp only [stringEncoding, List.length_append, natToBytesLE_length] at hk
  by_cases h8 : k < 8
  · simp only [stringEncoding]
    rw [List.take_append_of_le_length (by rw [natToBytesLE_length]; omega)]
    have hfd : fixedDecode 8 ((natToBytesLE 8 v.length).take k) = none := by
      simp only [fixedDecode, List.length_take, natToBytesLE_length]
      rw [if_neg (by omega)]
    simp only [hfd]
  · push_neg at h8
    simp only [stringEncoding]
    rw [List.take_append_eq_append_take]
    simp only [natToBytesLE_length]
    rw [List.take_of_length_le (by rw [natToBytesLE_length]; omega)]
    have hfd : fixedDecode 8 (natToBytesLE 8 v.length ++ v.take (k - 8))
        = some (v.length, v.take (k - 8)) := by
      simp only [fixedDecode]
      rw [if_pos (by simp [natToBytesLE_length]),
        List.take_left' (natToBytesLE_length 8 v.length),
        List.drop_left' (natToBytesLE_length 8 v.length),
        bytesToNatLE_natToBytesLE, Nat.mod_eq_of_lt hvlt]
    simp only [hfd]
    rw [if_neg (by simp only [List.length_take]; omega)]

lemma decodeN_take_short {α : Type} (e : Encoding α) (h : e.RoundTrips)
    (hs : e.ShortFails) :
    ∀ (vs : List α) (k : Nat), (∀ v ∈ vs, e.valid v = true) →
      k < (vs.map e.encode).flatten.length →
      e.decodeN vs.length ((vs.map e.encode).flatten.take k) = none := by
  intro vs
  induction vs with
  | nil =>
    intro k _ hk
    simp at hk
  | cons v vs ih =>
    intro k hv hk
    have hval : e.valid v = true := hv v (by simp)
    simp only [List.map_cons, List.flatten_cons] at hk ⊢
    by_cases hcase : k < (e.encode v).length
    · rw [List.take_append_of_le_length (le_of_lt hcase)]
      have hdec : e.decode ((e.encode v).take k) = none := hs v k hval hcase
      simp only [List.length_cons, Encoding.decodeN, hdec]
    · push_neg at hcase
      rw [List.take_append_eq_append_take, List.take_of_length_le hcase]
      have hd : e.decode (e.encode v
            ++ (vs.map e.encode).flatten.take (k - (e.encode v).length))
          = some (v, (vs.map e.encode).flatten.take (k - (e.encode v).length)) :=
        h v _ hval
      have hk2 : k - (e.encode v).length < (vs.map e.encode).flatten.length := by
        rw [List.length_append] at hk
        omega
      have hrec := ih (k - (e.encode v).length) (fun x hx => hv x (by simp [hx])) hk2
      simp only [List.length_cons, Encoding.decodeN, hd, hrec]

/-! ## The claims -/

/-- Claim C1: for every column variant whose encoding honours the wire-layout
contract, appending any sequence of valid values, Save-ing to a buffer and
Load-ing that same byte range with row count `n` into a freshly constructed
column of the same descriptor yields a column element-wise equal to the
original for all `n` values (equal size, equal `At` at every index). -/
theorem save_load_round_trip {α : Type} (e : Encoding α) (h : e.RoundTrips)
    (vs : List α) (hv : ∀ v ∈ vs, e.valid v = true) :
    ∃ loaded : Column α,
      (mkColumn e).Load ((mkColumn e).appendAll vs).Save vs.length = some (loaded, [])
      ∧ loaded.Size = ((mkColumn e).appendAll vs).Size
      ∧ ∀ i : Nat, loaded.At i = ((mkColumn e).appendAll vs).At i := by
  refine ⟨⟨e, vs⟩, ?_, ?_, ?_⟩
  · have hd := decodeN_encode e h vs [] hv
    simp only [List.append_nil] at hd
    rw [← appendAll_mk_save e vs] at hd
    have henc : (mkColumn e).enc = e := rfl
    have hdata : (mkColumn e).data = [] := rfl
    simp only [Column.Load, henc, hdata, hd, List.nil_append]
  · simp [Column.Size, appendAll_mk_data]
  · intro i
    simp [Column.At, appendAll_mk_data]

/-- Witness for C1: the UInt32 column with values `[1, 2, 3]` (the §8
scenario) round-trips through Save and Load. -/
theorem save_load_round_trip_witness :
    (fixedEncoding uint32Desc 4).RoundTrips
    ∧ (∀ v ∈ [1, 2, 3], (fixedEncoding uint32Desc 4).valid v = true)
    ∧ ∃ loaded : Column Nat,
        (mkColumn (fixedEncoding uint32Desc 4)).Load
            ((mkColumn (fixedEncoding uint32Desc 4)).appendAll [1, 2, 3]).Save 3
          = some (loaded, [])
        ∧ loaded.Size = ((mkColumn (fixedEncoding uint32Desc 4)).appendAll [1, 2, 3]).Size
        ∧ ∀ i : Nat, loaded.At i
            = ((mkColumn (fixedEncoding uint32Desc 4)).appendAll [1, 2, 3]).At i :=
  ⟨fixedEncoding_roundTrips uint32Desc 4, by decide,
    save_load_round_trip (fixedEncoding uint32Desc 4)
      (fixedEncoding_roundTrips uint32Desc 4) [1, 2, 3] (by decide)⟩

/-- Claim C2: appending `v_0..v_{n-1}` in order to a freshly constructed
column gives `Size() = n` and `At(i) = v_i` for every `i < n`. -/
theorem append_at_size {α : Type} (e : Encoding α) (vs : List α) (i : Nat)
    (hi : i < vs.length) :
    ((mkColumn e).appendAll vs).Size = vs.length
    ∧ ((mkColumn e).appendAll vs).At i = some (vs.get ⟨i, hi⟩) := by
  constructor
  · simp [Column.Size, appendAll_mk_data]
  · simp [Column.At, appendAll_mk_data, List.getElem?_eq_getElem hi]

/-- Witness for C2: `[10, 20, 30]` appended to a UInt32 column has size 3 and
`At(1) = 20`. -/
theorem append_at_size_witness :
    1 < 3
    ∧ ((mkColumn (fixedEncoding uint32Desc 4)).appendAll [10, 20, 30]).Size = 3
    ∧ ((mkColumn (fixedEncoding uint32Desc 4)).appendAll [10, 20, 30]).At 1 = some 20 :=
  ⟨by decide, append_at_size (fixedEncoding uint32Desc 4) [10, 20, 30] 1 (by decide)⟩

/-- Claim C3: a freshly constructed column has `Size() = 0` and `At(0)` fails
with the IndexError outcome; in general `At(index)` fails whenever
`index >= Size()`. -/
theorem fresh_empty_at_index_error {α : Type} (e : Encoding α) (c : Column α)
    (i : Nat) (hi : c.Size ≤ i) :
    (mkColumn e).Size = 0 ∧ (mkColumn e).At 0 = none ∧ c.At i = none := by
  refine ⟨rfl, rfl, ?_⟩
  exact List.getElem?_eq_none hi

/-- Witness for C3: the fresh UInt32 column is empty with `At(0)` failing, and
a one-element column fails `At(1)`. -/
theorem fresh_empty_at_index_error_witness :
    (mkColumnUInt32.Append 5).Size ≤ 1
    ∧ mkColumnUInt32.Size = 0
    ∧ mkColumnUInt32.At 0 = none
    ∧ (mkColumnUInt32.Append 5).At 1 = none :=
  ⟨by decide,
    fresh_empty_at_index_error (fixedEncoding uint32Desc 4)
      (mkColumnUInt32.Append 5) 1 (by decide)⟩

/-- Claim C4: `Slice(0, n)` of an `n`-row column succeeds and yields a new
column with the same type descriptor, the same size and element-wise equal
values; the slice is an independent value — mutating the source afterwards
(an `Append`) leaves the sliced range, hence the slice, unchanged. -/
theorem slice_full_equals_source {α : Type} (c : Column α) :
    ∃ s : Column α, c.Slice 0 c.Size = some s
      ∧ s.GetType = c.GetType
      ∧ s.Size = c.Size
      ∧ (∀ i : Nat, s.At i = c.At i)
      ∧ ∀ v : α, (c.Append v).Slice 0 c.Size = some s := by
  refine ⟨⟨c.enc, c.data⟩, ?_, rfl, rfl, fun i => rfl, ?_⟩
  · simp [Column.Slice, Column.Size, List.take_length]
  · intro v
    simp only [Column.Slice, Column.Append, Column.Size, List.length_append,
      List.length_singleton, Nat.zero_add]
    rw [if_pos (by omega), List.drop_zero, List.take_left]

/-- Claim C5: `CloneEmpty()` always yields a column with `Size() = 0` and the
source's exact type descriptor, on which narrowing (`AsStrict`) to the
source's concrete type succeeds, regardless of the source's contents. -/
theorem clone_empty_spec {α : Type} (c : Column α) :
    c.CloneEmpty.Size = 0
    ∧ c.CloneEmpty.GetType = c.GetType
    ∧ c.CloneEmpty.AsStrict c.GetType = some c.CloneEmpty := by
  refine ⟨rfl, rfl, ?_⟩
  simp [Column.AsStrict, Column.GetType, Column.CloneEmpty]

/-- Claim C6: `Clear()` is total (never fails), and afterwards `Size() = 0`
while the type descriptor is unchanged. -/
theorem clear_spec {α : Type} (c : Column α) :
    c.Clear.Size = 0 ∧ c.Clear.GetType = c.GetType :=
  ⟨rfl, rfl⟩

/-- Claim C7: swapping a populated column A with an empty column B of the
same variant leaves A empty and B holding exactly A's values in order; in
general each column of a swapped pair reports the other's prior size and
contents. -/
theorem swap_spec {α : Type} (e : Encoding α) (vs : List α) :
    ((((mkColumn e).appendAll vs).Swap (mkColumn e)).1).Size = 0
    ∧ ((((mkColumn e).appendAll vs).Swap (mkColumn e)).2).data = vs
    ∧ ∀ x y : Column α,
        (x.Swap y).1.data = y.data ∧ (x.Swap y).1.Size = y.Size
        ∧ (x.Swap y).2.data = x.data ∧ (x.Swap y).2.Size = x.Size := by
  refine ⟨rfl, ?_, fun x y => ⟨rfl, rfl, rfl, rfl⟩⟩
  simp [Column.Swap, appendAll_mk_data]

/-- Claim C8: a zero-length slice at offset `Size()` — in particular
`Slice(0, 0)` on an empty column — succeeds and produces an empty column of
the same type, on which the checked narrowing to that type succeeds. -/
theorem slice_zero_at_end_spec {α : Type} (c : Column α) :
    ∃ s : Column α, c.Slice c.Size 0 = some s
      ∧ s.Size = 0
      ∧ s.GetType = c.GetType
      ∧ s.AsStrict c.GetType = some s := by
  refine ⟨⟨c.enc, []⟩, ?_, rfl, rfl, ?_⟩
  · simp [Column.Slice]
  · simp [Column.AsStrict, Column.GetType]

/-- Claim C9: for every column, whatever its variant's layout (the layout
contracts `RoundTrips` and `ShortFails` are discharged below for the
fixed-width, FixedString and String encodings), `Load(input, n)` signals its
outcome as a result value rather than an exception: it succeeds — having
appended exactly `n` values in the variant's binary layout — when the input
holds the bytes of `n` values (any trailing bytes are left over), and it
fails when the input is exhausted before the `n` values are fully read (any
proper leading portion of those bytes). -/
theorem load_result_spec {α : Type} (c : Column α) (h : c.enc.RoundTrips)
    (hs : c.enc.ShortFails) (vs : List α)
    (hv : ∀ v ∈ vs, c.enc.valid v = true) (junk : List Nat) (k : Nat)
    (hk : k < (vs.map c.enc.encode).flatten.length) :
    (∃ col : Column α,
        c.Load ((vs.map c.enc.encode).flatten ++ junk) vs.length = some (col, junk)
        ∧ col.data = c.data ++ vs ∧ col.Size = c.Size + vs.length)
    ∧ (∀ (input : List Nat) (n : Nat) (col : Column α) (rest : List Nat),
        c.Load input n = some (col, rest) → col.Size = c.Size + n)
    ∧ c.Load ((vs.map c.enc.encode).flatten.take k) vs.length = none := by
  refine ⟨⟨⟨c.enc, c.data ++ vs⟩, ?_, rfl, ?_⟩, ?_, ?_⟩
  · have hd := decodeN_encode c.enc h vs junk hv
    simp only [Column.Load, hd]
  · simp [Column.Size]
  · intro input n col rest hload
    simp only [Column.Load] at hload
    cases hq : c.enc.decodeN n input with
    | none =>
      simp only [hq] at hload
      exact Option.noConfusion hload
    | some p =>
      obtain ⟨ws, r⟩ := p
      simp only [hq, Option.some.injEq, Prod.mk.injEq] at hload
      obtain ⟨h1, h2⟩ := hload
      have hw : ws.length = n := decodeN_length c.enc n input ws r hq
      rw [← h1]
      simp [Column.Size, hw]
  · have hnone := decodeN_take_short c.enc h hs vs k hv hk
    simp only [Column.Load, hnone]

/-- Witness for C9: a UInt32 column loads 2 rows from its 8 saved bytes plus
a trailing byte (remainder returned), every successful load appends exactly
the row count, and loading 2 rows from only the first 5 of those bytes
fails. -/
theorem load_result_spec_witness :
    (fixedEncoding uint32Desc 4).RoundTrips
    ∧ (fixedEncoding uint32Desc 4).ShortFails
    ∧ (∀ v ∈ [1, 2], (fixedEncoding uint32Desc 4).valid v = true)
    ∧ 5 < (([1, 2].map (fixedEncoding uint32Desc 4).encode).flatten).length
    ∧ ((∃ col : Column Nat,
          mkColumnUInt32.Load
              (([1, 2].map mkColumnUInt32.enc.encode).flatten ++ [9]) 2
            = some (col, [9])
          ∧ col.data = mkColumnUInt32.data ++ [1, 2]
          ∧ col.Size = mkColumnUInt32.Size + 2)
        ∧ (∀ (input : List Nat) (n : Nat) (col : Column Nat) (rest : List Nat),
            mkColumnUInt32.Load input n = some (col, rest)
              → col.Size = mkColumnUInt32.Size + n)
        ∧ mkColumnUInt32.Load
            (([1, 2].map mkColumnUInt32.enc.encode).flatten.take 5) 2 = none) :=
  ⟨fixedEncoding_roundTrips uint32Desc 4, fixedEncoding_shortFails uint32Desc 4,
    by decide, by decide,
    load_result_spec mkColumnUInt32 (fixedEncoding_roundTrips uint32Desc 4)
      (fixedEncoding_shortFails uint32Desc 4) [1, 2] (by decide) [9] 5 (by decide)⟩

/-- Claim C10: saving a column into a zero-filled buffer larger than its wire
layout and then Load-ing the whole oversized buffer with the original row
count succeeds, consumes exactly the bytes Save produced (the remainder is
the untouched zero tail), and yields a column element-wise equal to the
saved one. -/
theorem oversized_buffer_load {α : Type} (e : Encoding α) (h : e.RoundTrips)
    (vs : List α) (hv : ∀ v ∈ vs, e.valid v = true) (cap : Nat)
    (hcap : ((mkColumn e).appendAll vs).Save.length ≤ cap) :
    ∃ (buf : List Nat) (loaded : Column α),
      ((mkColumn e).appendAll vs).SaveTo (List.replicate cap 0) = some buf
      ∧ buf.length = cap
      ∧ (mkColumn e).Load buf vs.length
          = some (loaded, List.replicate (cap - ((mkColumn e).appendAll vs).Save.length) 0)
      ∧ loaded.Size = vs.length
      ∧ ∀ i : Nat, loaded.At i = ((mkColumn e).appendAll vs).At i := by
  refine ⟨((mkColumn e).appendAll vs).Save
      ++ List.replicate (cap - ((mkColumn e).appendAll vs).Save.length) 0,
    ⟨e, vs⟩, ?_, ?_, ?_, ?_, ?_⟩
  · simp only [Column.SaveTo, List.length_replicate]
    rw [if_pos hcap, List.drop_replicate]
  · simp only [List.length_append, List.length_replicate]
    omega
  · have hd := decodeN_encode e h vs
      (List.replicate (cap - ((mkColumn e).appendAll vs).Save.length) 0) hv
    rw [← appendAll_mk_save e vs] at hd
    have henc : (mkColumn e).enc = e := rfl
    have hdata : (mkColumn e).data = [] := rfl
    simp only [Column.Load, henc, hdata, hd, List.nil_append]
  · simp [Column.Size]
  · intro i
    simp [Column.At, appendAll_mk_data]

/-- Witness for C10: the UInt32 column `[1, 2, 3]` saved into a zero-filled
4096-byte buffer (the test's `char buffer[4096]`) loads back equal. -/
theorem oversized_buffer_load_witness :
    (fixedEncoding uint32Desc 4).RoundTrips
    ∧ (∀ v ∈ [1, 2, 3], (fixedEncoding uint32Desc 4).valid v = true)
    ∧ ((mkColumn (fixedEncoding uint32Desc 4)).appendAll [1, 2, 3]).Save.length ≤ 4096
    ∧ ∃ (buf : List Nat) (loaded : Column Nat),
        ((mkColumn (fixedEncoding uint32Desc 4)).appendAll [1, 2, 3]).SaveTo
            (List.replicate 4096 0) = some buf
        ∧ buf.length = 4096
        ∧ (mkColumn (fixedEncoding uint32Desc 4)).Load buf 3
            = some (loaded, List.replicate
                (4096 - ((mkColumn (fixedEncoding uint32Desc 4)).appendAll
                  [1, 2, 3]).Save.length) 0)
        ∧ loaded.Size = 3
        ∧ ∀ i : Nat, loaded.At i
            = ((mkColumn (fixedEncoding uint32Desc 4)).appendAll [1, 2, 3]).At i :=
  ⟨fixedEncoding_roundTrips uint32Desc 4, by decide, by decide,
    oversized_buffer_load (fixedEncoding uint32Desc 4)
      (fixedEncoding_roundTrips uint32Desc 4) [1, 2, 3] (by decide) 4096 (by decide)⟩
